import Mathlib

/-!
Verification of the Guernica firewall-rule comparison pipeline
(`src/guernica.py`) against its natural-language specification.

Lines of the input files and of the produced diff are modelled as
`List Char`.  Python's `str.strip`, `re.sub`, `sorted`, `difflib` and the
regular expressions used by the program are given explicit executable
models below; each definition mirrors the corresponding place in the
source.
-/

namespace Guernica

/-- Python `Py_UNICODE_ISSPACE`, the predicate behind `str.strip()` and the
regex class `\s` (the ASCII part plus the common Unicode space characters). -/
def isWs (c : Char) : Bool :=
  c ∈ [' ', '\t', '\n', '\r', '\x0b', '\x0c',
       '\x1c', '\x1d', '\x1e', '\x1f', '\x85', '\xa0',
       ' ', ' ', ' ', ' ', ' ', ' ',
       ' ', ' ', ' ', ' ', ' ', ' ',
       ' ', ' ', ' ', ' ', '　']

/-- The regex class `[A-Z]` from `re.sub(r'--([A-Z])', r'-\1', ...)`. -/
def isUpperAZ (c : Char) : Bool := 'A' ≤ c && c ≤ 'Z'

/-- The regex class `[0-9]` / `\d` (ASCII). -/
def isDigitC (c : Char) : Bool := '0' ≤ c && c ≤ '9'

/-- The regex class `\w` (ASCII part). -/
def isWordC (c : Char) : Bool :=
  ('a' ≤ c && c ≤ 'z') || ('A' ≤ c && c ≤ 'Z') || isDigitC c || c = '_'

/-- Python `line.strip()`: remove leading and trailing whitespace. -/
def pstrip (s : List Char) : List Char :=
  (((s.dropWhile isWs).reverse.dropWhile isWs)).reverse

/-- Scanner for `re.sub(r'--([A-Z])', r'-\1', s)`.  The accumulator `d`
counts the pending run of consecutive dashes: a run of `d ≥ 2` dashes
followed by an uppercase letter contains exactly one (leftmost-scan,
non-overlapping) match `--X`, which is rewritten to `-X`, shortening the
run by one dash. -/
def fixAux : Nat → List Char → List Char
  | d, [] => List.replicate d '-'
  | d, c :: rest =>
    if c = '-' then fixAux (d + 1) rest
    else if isUpperAZ c && decide (2 ≤ d) then
      List.replicate (d - 1) '-' ++ c :: fixAux 0 rest
    else
      List.replicate d '-' ++ c :: fixAux 0 rest

/-- `re.sub(r'--([A-Z])', r'-\1', s)` from `normalize_iptables_config`. -/
def fixDashes (s : List Char) : List Char := fixAux 0 s

/-- Scanner for `re.sub(r'\s+', ' ', s)`: `inWs` records whether the
previous character belonged to a whitespace run already replaced by a
single space. -/
def collapseAux : Bool → List Char → List Char
  | _, [] => []
  | inWs, c :: rest =>
    if isWs c then
      if inWs then collapseAux true rest else ' ' :: collapseAux true rest
    else c :: collapseAux false rest

/-- `re.sub(r'\s+', ' ', s)` from `normalize_iptables_config`. -/
def collapseWs (s : List Char) : List Char := collapseAux false s

/-- Python string `<=` (lexicographic comparison by code point). -/
def strLe : List Char → List Char → Bool
  | [], _ => true
  | _ :: _, [] => false
  | a :: as, b :: bs =>
    if a.toNat < b.toNat then true
    else if b.toNat < a.toNat then false
    else strLe as bs

/-- Insertion into a `strLe`-sorted list. -/
def strInsert (x : List Char) : List (List Char) → List (List Char)
  | [] => [x]
  | y :: ys => if strLe x y then x :: y :: ys else y :: strInsert x ys

/-- Python `sorted` on a list of strings (ascending lexicographic order). -/
def pysorted : List (List Char) → List (List Char)
  | [] => []
  | x :: xs => strInsert x (pysorted xs)

/-- The filter condition of `normalize_iptables_config`:
`line.strip() and not line.strip().startswith('#')`. -/
def keepLine (l : List Char) : Bool :=
  !(pstrip l).isEmpty && !(['#'].isPrefixOf (pstrip l))

/-- `normalize_iptables_config` from `src/guernica.py`: drop blank and
comment lines, fix `--X` double dashes, collapse whitespace runs, and sort. -/
def normalize_iptables_config (lines : List (List Char)) : List (List Char) :=
  pysorted ((lines.filter keepLine).map fun l => collapseWs (fixDashes (pstrip l)))

/-- Character classes occurring in the program's regular expressions. -/
inductive RClass where
  | ws    : RClass
  | digit : RClass
  | word  : RClass
  | anyc  : RClass
deriving DecidableEq

/-- Semantics of a character class (`anyc` is `.`, which in Python does not
match a newline). -/
def classOk : RClass → Char → Bool
  | .ws, c => isWs c
  | .digit, c => isDigitC c
  | .word, c => isWordC c
  | .anyc, c => c ≠ '\n'

/-- Abstract syntax of the regular expressions used in `guernica.py`:
literal text, `C+`, `C*` (with `.*` as `star anyc`), an alternation of
literals, and the `$` anchor. -/
inductive RE where
  | lit  : List Char → RE
  | plus : RClass → RE
  | star : RClass → RE
  | alt  : List (List Char) → RE
  | endA : RE

/-- Lexicographic helper used by the termination proof of `matchSeq`. -/
theorem lexLeLt {a b c d : Nat} (h1 : a ≤ c) (h2 : b < d) :
    Prod.Lex (· < ·) (· < ·) (a, b) (c, d) := by
  rcases Nat.lt_or_ge a c with h | h
  · exact Prod.Lex.left _ _ h
  · have he : a = c := le_antisymm h1 h
    subst he; exact Prod.Lex.right _ h2

/-- Backtracking matcher: `matchSeq res s` decides whether the pattern
list `res` matches some prefix of `s` (Python `re` match at the current
position).  `C+` is expanded as one mandatory character followed by `C*`;
`$` accepts at the end of the string or before a final newline. -/
def matchSeq : List RE → List Char → Bool
  | [], _ => true
  | .lit l :: res, s => l.isPrefixOf s && matchSeq res (s.drop l.length)
  | .plus cl :: res, s =>
    match s with
    | c :: rest => classOk cl c && matchSeq (.star cl :: res) rest
    | [] => false
  | .star cl :: res, s =>
    matchSeq res s ||
      (match s with
       | c :: rest => classOk cl c && matchSeq (.star cl :: res) rest
       | [] => false)
  | .alt ls :: res, s => ls.any fun l => l.isPrefixOf s && matchSeq res (s.drop l.length)
  | .endA :: res, s => (s.isEmpty || s == ['\n']) && matchSeq res s
termination_by res s => (s.length, res.length)
decreasing_by
  all_goals simp_wf
  all_goals first
    | exact lexLeLt (by omega) (by omega)
    | exact Prod.Lex.left _ _ (by omega)

/-- Python `re.search`: try `matchSeq` at every start position. -/
def reSearch (res : List RE) : List Char → Bool
  | [] => matchSeq res []
  | c :: rest => matchSeq res (c :: rest) || reSearch res rest

/-- `pat` occurs as a contiguous substring of `s`. -/
def hasSubstr (pat : List Char) : List Char → Bool
  | [] => pat.isEmpty
  | c :: rest => pat.isPrefixOf (c :: rest) || hasSubstr pat rest

/-- The `iptables_patterns` signature list of `is_iptables_file`. -/
def iptables_patterns : List (List RE) :=
  [ [.lit "iptables".data],
    [.lit "-A".data, .plus .ws, .plus .word],
    [.lit "-p".data, .plus .ws, .plus .word],
    [.lit "--dport".data],
    [.lit "--sport".data],
    [.lit "-j".data, .plus .ws, .plus .word],
    [.alt ["ACCEPT".data, "DROP".data, "REJECT".data]] ]

/-- One line of input matches at least one signature (the inner
`for pattern ... break` of `is_iptables_file` increments the counter at
most once per line). -/
def lineMatchesIptables (l : List Char) : Bool :=
  iptables_patterns.any fun p => reSearch p l

/-- The scanning loop of `is_iptables_file`: `m` is the running match
counter; the function returns `true` as soon as the counter reaches the
threshold 3, and `false` when the lines are exhausted. -/
def isIptablesAux : List (List Char) → Nat → Bool
  | [], _ => false
  | l :: rest, m =>
    if lineMatchesIptables l then
      if 3 ≤ m + 1 then true else isIptablesAux rest (m + 1)
    else
      if 3 ≤ m then true else isIptablesAux rest m

/-- `is_iptables_file` from `src/guernica.py`. -/
def is_iptables_file (content : List (List Char)) : Bool :=
  if content.isEmpty then false else isIptablesAux content 0

/-- The `critical_ports` dictionary of `detect_security_risks`. -/
def critical_ports : List (Nat × List Char) :=
  [ (22, "SSH - Used for remote access, often targeted by attackers.".data),
    (80, "HTTP - Often unencrypted, vulnerable to various attacks.".data),
    (443, "HTTPS - Critical for secure web traffic, targeted for MiTM attacks.".data),
    (8080, "HTTP Proxy - Can bypass normal firewall rules, potentially dangerous.".data),
    (53, "DNS - Can be used for DNS amplification attacks.".data),
    (3306, "MySQL - Often targeted in brute force attacks.".data),
    (21, "FTP - Unencrypted file transfers, vulnerable to interception.".data),
    (23, "Telnet - Unencrypted communication, easily intercepted.".data),
    (1433, "MS SQL Server - Database often targeted.".data),
    (3389, "RDP - Remote desktop access, vulnerable to brute force attacks.".data),
    (5432, "PostgreSQL - Target database for attacks.".data),
    (27017, "MongoDB - NoSQL database, often misconfigured.".data) ]

/-- The `risky_patterns` catalog of `detect_security_risks`: every entry's
regular expression starts with the literal `iptables` followed by `.*`. -/
def risky_patterns : List (List RE × List Char) :=
  [ ([.lit "iptables".data, .star .anyc, .lit "-j".data, .plus .ws, .lit "ACCEPT".data,
      .star .ws, .endA],
     "High risk: Unconditional acceptance rule without restrictions".data),
    ([.lit "iptables".data, .star .anyc, .lit "-A".data, .plus .ws, .lit "INPUT".data,
      .star .anyc, .lit "-j".data, .plus .ws, .lit "ACCEPT".data, .star .ws, .endA],
     "Medium risk: Input acceptance rule without specific filters".data),
    ([.lit "iptables".data, .star .anyc, .lit "-A".data, .plus .ws, .lit "FORWARD".data,
      .star .anyc, .lit "-j".data, .plus .ws, .lit "ACCEPT".data, .star .ws, .endA],
     "High risk: Forwarding rule without restrictions, potential pivot point".data),
    ([.lit "iptables".data, .star .anyc, .lit "--dport".data, .plus .ws, .lit "0:65535".data],
     "Critical risk: Complete port range open".data),
    ([.lit "iptables".data, .star .anyc, .lit "--dport".data, .plus .ws, .lit "1:1024".data],
     "High risk: All privileged ports open".data),
    ([.lit "iptables".data, .star .anyc, .lit "--dport".data, .plus .ws, .plus .digit,
      .lit ":".data, .plus .digit],
     "Medium risk: Port range detected, verify if necessary".data),
    ([.lit "iptables".data, .star .anyc, .lit "-s".data, .plus .ws, .lit "0.0.0.0/0".data,
      .star .anyc, .lit "-j".data, .plus .ws, .lit "ACCEPT".data],
     "High risk: Accepting traffic from any source IP".data),
    ([.lit "iptables".data, .star .anyc, .lit "-A".data, .plus .ws, .lit "INPUT".data,
      .plus .ws, .lit "-s".data, .plus .ws, .lit "192.168.".data, .plus .digit,
      .lit ".".data, .plus .digit, .lit "/".data, .plus .digit,
      .star .anyc, .lit "-j".data, .plus .ws, .lit "ACCEPT".data],
     "Low risk: Private network access rule, verify scope".data),
    ([.lit "iptables".data, .star .anyc, .lit "-j".data, .plus .ws, .lit "DROP".data,
      .star .anyc, .lit "--state".data, .plus .ws, .lit "INVALID".data],
     "Medium risk: Security rule for invalid packets modified/removed".data),
    ([.lit "iptables".data, .star .anyc, .lit "-j".data, .plus .ws, .lit "DROP".data,
      .star .anyc, .lit "--state".data, .plus .ws, .lit "NEW".data, .star .anyc,
      .lit "-m".data, .plus .ws, .lit "state".data, .plus .ws, .lit "--state".data,
      .plus .ws, .lit "ESTABLISHED".data],
     "High risk: State tracking rule modified/removed".data),
    ([.lit "iptables".data, .star .anyc, .lit ":INPUT".data, .plus .ws, .lit "ACCEPT".data],
     "High risk: Default INPUT policy set to ACCEPT".data),
    ([.lit "iptables".data, .star .anyc, .lit ":FORWARD".data, .plus .ws, .lit "ACCEPT".data],
     "High risk: Default FORWARD policy set to ACCEPT".data),
    ([.lit "iptables".data, .star .anyc, .lit "-A".data, .plus .ws, .lit "INPUT".data,
      .star .anyc, .lit "--dport".data, .plus .ws, .lit "3389".data,
      .star .anyc, .lit "-j".data, .plus .ws, .lit "ACCEPT".data],
     "Medium risk: RDP port opened, vulnerable to brute force".data),
    ([.lit "iptables".data, .star .anyc, .lit "-A".data, .plus .ws, .lit "INPUT".data,
      .star .anyc, .lit "--dport".data, .plus .ws, .lit "22".data,
      .star .anyc, .lit "-j".data, .plus .ws, .lit "ACCEPT".data, .star .ws, .endA],
     "Medium risk: SSH port opened without IP restriction".data),
    ([.lit "iptables".data, .star .anyc, .lit "-A".data, .plus .ws, .lit "INPUT".data,
      .star .anyc, .lit "--dport".data, .plus .ws,
      .alt ["1433".data, "3306".data, "5432".data, "27017".data],
      .star .anyc, .lit "-j".data, .plus .ws, .lit "ACCEPT".data, .star .ws, .endA],
     "High risk: Database port exposed without restrictions".data) ]

/-- After the literal `--dport` of `re.search(r'--dport\s+(\d+)(?:-(\d+))?', line)`:
require `\s+`, capture the greedy digit run as group 1, then optionally a
dash followed by a second digit run as group 2. -/
def parseDportAfter (t : List Char) : Option (List Char × Option (List Char)) :=
  match t with
  | [] => none
  | c :: rest =>
    if isWs c then
      let u := rest.dropWhile isWs
      let ds := u.takeWhile isDigitC
      if ds.isEmpty then none
      else
        match u.drop ds.length with
        | '-' :: w =>
          let ds2 := w.takeWhile isDigitC
          if ds2.isEmpty then some (ds, none) else some (ds, some ds2)
        | _ => some (ds, none)
    else none

/-- Leftmost match of `re.search(r'--dport\s+(\d+)(?:-(\d+))?', line)`,
returning the two captured digit groups. -/
def findDport : List Char → Option (List Char × Option (List Char))
  | [] => none
  | c :: rest =>
    if "--dport".data.isPrefixOf (c :: rest) then
      match parseDportAfter ((c :: rest).drop 7) with
      | some r => some r
      | none => findDport rest
    else findDport rest

/-- Python `int` on a (non-empty, all-digit) captured group. -/
def digitsToNat (ds : List Char) : Nat :=
  ds.foldl (fun n c => 10 * n + (c.toNat - 48)) 0

/-- Decimal rendering of a number, for the f-string `Port {port}: ...`. -/
def natToChars (n : Nat) : List Char := Nat.toDigits 10 n

/-- Message built for a single-port hit of the `critical_ports` catalog. -/
def portMsgSingle (line desc : List Char) : List Char :=
  "[bold red]Security Risk Detected![/bold red] - ".data ++ pstrip line
    ++ " (".data ++ desc ++ ")".data

/-- Message built for one port of a port-range hit of the catalog. -/
def portMsgRange (line : List Char) (port : Nat) (desc : List Char) : List Char :=
  "[bold red]Security Risk Detected![/bold red] - ".data ++ pstrip line
    ++ " (Port ".data ++ natToChars port ++ ": ".data ++ desc ++ ")".data

/-- Message built for a `risky_patterns` hit. -/
def patternMsg (line desc : List Char) : List Char :=
  "[bold yellow]Potential Risk![/bold yellow] - ".data ++ pstrip line
    ++ " (".data ++ desc ++ ")".data

/-- The port-based detector of `detect_security_risks`, for one `+` line:
a captured range iterates `range(start, end + 1)` and reports every
catalog port in it; a single captured port reports its catalog entry. -/
def portFindings (line : List Char) : List (List Char) :=
  match findDport line with
  | none => []
  | some (g1, some g2) =>
    (List.range' (digitsToNat g1) (digitsToNat g2 + 1 - digitsToNat g1)).filterMap
      fun port => (critical_ports.lookup port).map fun desc => portMsgRange line port desc
  | some (g1, none) =>
    match critical_ports.lookup (digitsToNat g1) with
    | some desc => [portMsgSingle line desc]
    | none => []

/-- The pattern-based detector of `detect_security_risks`, for one `+`
line: every matching catalog entry yields one message, in catalog order. -/
def patternFindings (line : List Char) : List (List Char) :=
  risky_patterns.filterMap fun pd =>
    if reSearch pd.1 line then some (patternMsg line pd.2) else none

/-- `detect_security_risks` from `src/guernica.py`: only `+` lines are
inspected; per line, port-based findings come first, then pattern-based
ones. -/
def detect_security_risks (diff_lines : List (List Char)) : List (List Char) :=
  diff_lines.flatMap fun line =>
    if ['+'].isPrefixOf line then portFindings line ++ patternFindings line else []

/-!
Model of `difflib.unified_diff` as called by `compare_configs`
(`difflib.unified_diff(before, after, lineterm='')`, default context
`n = 3`, empty file names).  `SequenceMatcher.find_longest_match` is
modelled by its documented contract: among all positions `(i, j)` of the
considered ranges, the longest common run, breaking ties towards the
earliest position in `a` and then the earliest in `b`.
-/

/-- Length of the common run of `a` and `b` starting at positions `i`,
`j`, restricted to `j < bhi` and to `rem` remaining positions of the
`a`-range (callers pass `rem = ahi - i`). -/
def runLenAux (a b : List (List Char)) (bhi : Nat) : Nat → Nat → Nat → Nat
  | 0, _, _ => 0
  | rem + 1, i, j =>
    if j < bhi ∧ i < a.length ∧ j < b.length ∧ a[i]? = b[j]? then
      runLenAux a b bhi rem (i + 1) (j + 1) + 1
    else 0

/-- Length of the maximal common run starting at `(i, j)` inside the
ranges `[i, ahi) × [j, bhi)`. -/
def runLen (a b : List (List Char)) (ahi bhi i j : Nat) : Nat :=
  runLenAux a b bhi (ahi - i) i j

/-- `find_longest_match` on the ranges `[alo, ahi) × [blo, bhi)`:
the first candidate (scanning `i` then `j` in increasing order) whose run
length is maximal; result `(i, j, size)`. -/
def findLongestMatch (a b : List (List Char)) (alo ahi blo bhi : Nat) :
    Nat × Nat × Nat :=
  let cands := (List.range' alo (ahi - alo)).flatMap fun i =>
    (List.range' blo (bhi - blo)).map fun j => (i, j, runLen a b ahi bhi i j)
  cands.foldl (fun best c => if best.2.2 < c.2.2 then c else best) (alo, blo, 0)

/-- `get_matching_blocks` recursion: the longest match splits the ranges;
`fuel` bounds the recursion depth (callers pass more than
`(ahi - alo) + (bhi - blo)`). -/
def matchingBlocksAux (a b : List (List Char)) :
    Nat → Nat → Nat → Nat → Nat → List (Nat × Nat × Nat)
  | 0, _, _, _, _ => []
  | fuel + 1, alo, ahi, blo, bhi =>
    let m := findLongestMatch a b alo ahi blo bhi
    if m.2.2 = 0 then []
    else
      matchingBlocksAux a b fuel alo m.1 blo m.2.1
        ++ m :: matchingBlocksAux a b fuel (m.1 + m.2.2) ahi (m.2.1 + m.2.2) bhi

/-- The adjacent-block merging loop of `get_matching_blocks`. -/
def mergeAdjacent : (Nat × Nat × Nat) → List (Nat × Nat × Nat) → List (Nat × Nat × Nat)
  | cur, [] => [cur]
  | (i1, j1, k1), (i2, j2, k2) :: rest =>
    if i1 + k1 = i2 ∧ j1 + k1 = j2 then mergeAdjacent (i1, j1, k1 + k2) rest
    else (i1, j1, k1) :: mergeAdjacent (i2, j2, k2) rest

/-- `get_matching_blocks`: recursive blocks, adjacent runs merged, and the
terminating sentinel `(len(a), len(b), 0)`. -/
def matchingBlocks (a b : List (List Char)) : List (Nat × Nat × Nat) :=
  let blocks := matchingBlocksAux a b (a.length + b.length + 1) 0 a.length 0 b.length
  (match blocks with
   | [] => []
   | x :: rest => mergeAdjacent x rest) ++ [(a.length, b.length, 0)]

/-- The four opcode tags of `SequenceMatcher.get_opcodes`. -/
inductive Tag where
  | replace : Tag
  | delete  : Tag
  | insert  : Tag
  | equal   : Tag
deriving DecidableEq

/-- An opcode `(tag, i1, i2, j1, j2)`. -/
abbrev Opcode := Tag × Nat × Nat × Nat × Nat

/-- The opcode-building loop of `get_opcodes` over the matching blocks. -/
def opcodesAux : Nat → Nat → List (Nat × Nat × Nat) → List Opcode
  | _, _, [] => []
  | i, j, (ai, bj, k) :: rest =>
    (if i < ai ∧ j < bj then [(Tag.replace, i, ai, j, bj)]
     else if i < ai then [(Tag.delete, i, ai, j, bj)]
     else if j < bj then [(Tag.insert, i, ai, j, bj)]
     else [])
    ++ (if k ≠ 0 then [(Tag.equal, ai, ai + k, bj, bj + k)] else [])
    ++ opcodesAux (ai + k) (bj + k) rest

/-- `get_opcodes` for two sequences. -/
def getOpcodes (a b : List (List Char)) : List Opcode :=
  opcodesAux 0 0 (matchingBlocks a b)

/-- Shrink a leading `equal` opcode to at most `n = 3` context lines
(first fix-up of `get_grouped_opcodes`). -/
def trimHead : List Opcode → List Opcode
  | (Tag.equal, i1, i2, j1, j2) :: rest =>
    (Tag.equal, max i1 (i2 - 3), i2, max j1 (j2 - 3), j2) :: rest
  | l => l

/-- Shrink a trailing `equal` opcode to at most `n = 3` context lines
(second fix-up of `get_grouped_opcodes`). -/
def trimLast : List Opcode → List Opcode
  | [] => []
  | [(t, i1, i2, j1, j2)] =>
    if t = Tag.equal then [(t, i1, min i2 (i1 + 3), j1, min j2 (j1 + 3))]
    else [(t, i1, i2, j1, j2)]
  | c :: rest => c :: trimLast rest

/-- The grouping loop of `get_grouped_opcodes` (`n = 3`, so a group is
split at an `equal` opcode spanning more than `2 * n = 6` lines); a final
group consisting of a single `equal` opcode is not emitted. -/
def groupLoop (group : List Opcode) (acc : List (List Opcode)) :
    List Opcode → List (List Opcode)
  | [] =>
    acc ++ (if group.isEmpty ∨ (group.length = 1 ∧ ∃ c ∈ group, c.1 = Tag.equal)
            then [] else [group])
  | (t, i1, i2, j1, j2) :: rest =>
    if t = Tag.equal ∧ 6 < i2 - i1 then
      groupLoop [(t, max i1 (i2 - 3), i2, max j1 (j2 - 3), j2)]
        (acc ++ [group ++ [(t, i1, min i2 (i1 + 3), j1, min j2 (j1 + 3))]]) rest
    else groupLoop (group ++ [(t, i1, i2, j1, j2)]) acc rest

/-- `get_grouped_opcodes(n=3)`. -/
def getGroupedOpcodes (a b : List (List Char)) : List (List Opcode) :=
  let codes := getOpcodes a b
  let codes := if codes.isEmpty then [(Tag.equal, 0, 1, 0, 1)] else codes
  groupLoop [] [] (trimLast (trimHead codes))

/-- `difflib._format_range_unified`. -/
def formatRangeUnified (start stop : Nat) : List Char :=
  let beginning := start + 1
  let length := stop - start
  if length = 1 then natToChars beginning
  else
    natToChars (if length = 0 then beginning - 1 else beginning)
      ++ ',' :: natToChars length

/-- The `@@ -a,b +c,d @@` hunk header (with `lineterm = ''`). -/
def hunkHeader (g : List Opcode) : List Char :=
  match g.head?, g.getLast? with
  | some first, some last =>
    "@@ -".data ++ formatRangeUnified first.2.1 last.2.2.1
      ++ " +".data ++ formatRangeUnified first.2.2.2.1 last.2.2.2.2
      ++ " @@".data
  | _, _ => []

/-- Python `a[i1:i2]`. -/
def pyslice (a : List (List Char)) (i1 i2 : Nat) : List (List Char) :=
  (a.drop i1).take (i2 - i1)

/-- The per-opcode line output of `unified_diff`: context lines for
`equal`, `-` lines for `replace`/`delete`, `+` lines for
`replace`/`insert`. -/
def opcodeLines (a b : List (List Char)) (c : Opcode) : List (List Char) :=
  match c with
  | (Tag.equal, i1, i2, _, _) => (pyslice a i1 i2).map (' ' :: ·)
  | (Tag.replace, i1, i2, j1, j2) =>
    (pyslice a i1 i2).map ('-' :: ·) ++ (pyslice b j1 j2).map ('+' :: ·)
  | (Tag.delete, i1, i2, _, _) => (pyslice a i1 i2).map ('-' :: ·)
  | (Tag.insert, _, _, j1, j2) => (pyslice b j1 j2).map ('+' :: ·)

/-- `difflib.unified_diff(a, b, lineterm='')`: the two file-header lines
(emitted once, before the first group), then per group the hunk header
followed by the tagged lines. -/
def unifiedDiff (a b : List (List Char)) : List (List Char) :=
  let groups := getGroupedOpcodes a b
  (if groups.isEmpty then [] else ["--- ".data, "+++ ".data])
    ++ groups.flatMap fun g => hunkHeader g :: g.flatMap (opcodeLines a b)

/-- `compare_configs` from `src/guernica.py`: the unified diff with the
`---`/`+++` file-header lines filtered out. -/
def compare_configs (before after : List (List Char)) : List (List Char) :=
  (unifiedDiff before after).filter fun line =>
    !("---".data.isPrefixOf line) && !("+++".data.isPrefixOf line)

/-- Rounding to two decimal places: model of Python `round(x, 2)`
(round half to even). -/
def round2 (q : ℚ) : ℚ :=
  if q * 100 - ⌊q * 100⌋ < 1 / 2 then (⌊q * 100⌋ : ℚ) / 100
  else if 1 / 2 < q * 100 - ⌊q * 100⌋ then ((⌊q * 100⌋ : ℚ) + 1) / 100
  else if ⌊q * 100⌋ % 2 = 0 then (⌊q * 100⌋ : ℚ) / 100
  else ((⌊q * 100⌋ : ℚ) + 1) / 100

/-- The result record of `calculate_impact_metrics`. -/
structure ImpactMetrics where
  chaos_score : ℚ
  additions : Nat
  removals : Nat
  input_changes : Nat
  output_changes : Nat
  forward_changes : Nat
deriving DecidableEq

/-- `calculate_impact_metrics` from `src/guernica.py`, with Python floats
modelled as rationals. -/
def calculate_impact_metrics (diff_lines : List (List Char)) : ImpactMetrics :=
  let add_count := diff_lines.countP fun line => ['+'].isPrefixOf line
  let remove_count := diff_lines.countP fun line => ['-'].isPrefixOf line
  let chaos_score : ℚ := add_count * (3 / 2) + remove_count * 1
  let total_lines := diff_lines.countP fun line =>
    ['+'].isPrefixOf line || ['-'].isPrefixOf line || [' '].isPrefixOf line
  let max_expected_score : ℚ :=
    if 0 < total_lines then max 50 (min 200 ((total_lines : ℚ) / 2)) else 50
  let scaled_chaos : ℚ := min 100 (chaos_score / max_expected_score * 100)
  { chaos_score := round2 scaled_chaos
    additions := add_count
    removals := remove_count
    input_changes := diff_lines.countP fun line =>
      (['+'].isPrefixOf line || ['-'].isPrefixOf line) && hasSubstr "INPUT".data line
    output_changes := diff_lines.countP fun line =>
      (['+'].isPrefixOf line || ['-'].isPrefixOf line) && hasSubstr "OUTPUT".data line
    forward_changes := diff_lines.countP fun line =>
      (['+'].isPrefixOf line || ['-'].isPrefixOf line) && hasSubstr "FORWARD".data line }

/-- Spec-side chaos score (§4.6 of the specification, claim C7):
`baseline = clamp(total / 2, 50, 200)` over the count of `+`/`-`/space
lines, and `chaosScore = clamp(raw / baseline * 100, 0, 100)` rounded to
two decimal places. -/
def chaosScoreSpec (diff_lines : List (List Char)) : ℚ :=
  let additions := diff_lines.countP fun line => ['+'].isPrefixOf line
  let removals := diff_lines.countP fun line => ['-'].isPrefixOf line
  let total := diff_lines.countP fun line =>
    ['+'].isPrefixOf line || ['-'].isPrefixOf line || [' '].isPrefixOf line
  let baseline : ℚ := max 50 (min 200 ((total : ℚ) / 2))
  round2 (min 100 (max 0 ((additions * (3 / 2) + removals * 1) / baseline * 100)))

/-- The line starts with two dashes followed by an uppercase ASCII
letter, i.e. with a match of `re.sub(r'--([A-Z])', r'-\1', ...)`. -/
def startsDDU : List Char → Bool
  | '-' :: '-' :: c :: _ => isUpperAZ c
  | _ => false

/-- The line contains two consecutive dashes followed by an uppercase
ASCII letter somewhere. -/
def hasDDU : List Char → Bool
  | [] => false
  | s@(_ :: rest) => startsDDU s || hasDDU rest

/-- The `before` rule set of the spec scenario of C2. -/
def c2_before : List (List Char) :=
  ["-A INPUT -p tcp --dport 80 -j ACCEPT\n".data]

/-- The `after` rule set of the spec scenario of C2. -/
def c2_after : List (List Char) :=
  ["-A INPUT -p tcp --dport 80 -j ACCEPT\n".data,
   "-A INPUT -p tcp --dport 3389 -j ACCEPT\n".data]

/-- The normalize-then-diff pipeline applied to the C2 scenario. -/
def c2_diff : List (List Char) :=
  compare_configs (normalize_iptables_config c2_before)
    (normalize_iptables_config c2_after)

section Lemmas

/-- Counting two mutually exclusive predicates adds up to counting their
disjunction. -/
theorem countP_or_of_exclusive {p q : List Char → Bool}
    (hpq : ∀ a, ¬(p a = true ∧ q a = true)) :
    ∀ l : List (List Char),
      l.countP p + l.countP q = l.countP fun a => p a || q a := by
  intro l
  induction l with
  | nil => simp
  | cons a l ih =>
    rcases hp : p a with _ | _ <;> rcases hq : q a with _ | _
    · simp only [List.countP_cons, hp, hq]; simpa using ih
    · simp only [List.countP_cons, hp, hq]; simp; omega
    · simp only [List.countP_cons, hp, hq]; simp; omega
    · exact absurd ⟨hp, hq⟩ (hpq a)

/-- Bounds for `round2` on an interval already inside `[0, 100]`. -/
theorem round2_bounds {q : ℚ} (h0 : 0 ≤ q) (h1 : q ≤ 100) :
    0 ≤ round2 q ∧ round2 q ≤ 100 := by
  unfold round2
  have hn0 : (0 : ℤ) ≤ ⌊q * 100⌋ := Int.floor_nonneg.2 (by positivity)
  have hn1 : ⌊q * 100⌋ ≤ 10000 := by
    have : q * 100 ≤ 10000 := by nlinarith
    calc ⌊q * 100⌋ ≤ ⌊(10000 : ℚ)⌋ := Int.floor_le_floor this
    _ = 10000 := by norm_num
  have hfl : (⌊q * 100⌋ : ℚ) ≤ q * 100 := Int.floor_le _
  set n : ℤ := ⌊q * 100⌋ with hn
  have hcast0 : (0 : ℚ) ≤ (n : ℚ) := by exact_mod_cast hn0
  have hcast1 : (n : ℚ) ≤ 10000 := by exact_mod_cast hn1
  split
  · constructor <;> [positivity; (rw [div_le_iff (by norm_num)]; linarith)]
  · rename_i hlt
    push_neg at hlt
    have hq2 : (n : ℚ) + 1 ≤ 10000 := by
      have h9 : (n : ℚ) + 1 / 2 ≤ q * 100 := by linarith
      have : (n : ℚ) < 10000 := by linarith
      have : n < 10000 := by exact_mod_cast this
      have : n + 1 ≤ 10000 := by omega
      exact_mod_cast this
    split
    · constructor <;> [positivity; (rw [div_le_iff (by norm_num)]; push_cast; linarith)]
    · split <;> constructor
      · positivity
      · rw [div_le_iff (by norm_num)]; linarith
      · positivity
      · rw [div_le_iff (by norm_num)]; push_cast; linarith

end Lemmas

/-- C8: for every diff-line sequence, `additions` counts the lines
starting with `+`, `removals` counts the lines starting with `-`, and
their sum counts the lines starting with `+` or `-`. -/
theorem impact_counts_additions_removals :
    ∀ dl : List (List Char),
      (calculate_impact_metrics dl).additions
          = dl.countP (fun line => ['+'].isPrefixOf line) ∧
      (calculate_impact_metrics dl).removals
          = dl.countP (fun line => ['-'].isPrefixOf line) ∧
      (calculate_impact_metrics dl).additions + (calculate_impact_metrics dl).removals
          = dl.countP fun line => ['+'].isPrefixOf line || ['-'].isPrefixOf line := by
  intro dl
  refine ⟨rfl, rfl, ?_⟩
  show dl.countP _ + dl.countP _ = _
  apply countP_or_of_exclusive
  intro a ⟨hp, hm⟩
  cases a with
  | nil => simp [List.isPrefixOf] at hp
  | cons c rest =>
    simp [List.isPrefixOf] at hp hm
    rw [← hp] at hm
    exact absurd hm (by decide)

/-- C7: the chaos score of `calculate_impact_metrics` equals the
spec formula `clamp(raw / clamp(total/2, 50, 200) * 100, 0, 100)` rounded
to two decimals, and always lies in `[0, 100]`. -/
theorem chaos_score_spec_and_bounds :
    ∀ dl : List (List Char),
      (calculate_impact_metrics dl).chaos_score = chaosScoreSpec dl ∧
      0 ≤ (calculate_impact_metrics dl).chaos_score ∧
      (calculate_impact_metrics dl).chaos_score ≤ 100 := by
  intro dl
  set add := dl.countP (fun line => ['+'].isPrefixOf line) with hadd
  set rem := dl.countP (fun line => ['-'].isPrefixOf line) with hrem
  set total := dl.countP (fun line =>
    ['+'].isPrefixOf line || ['-'].isPrefixOf line || [' '].isPrefixOf line) with htot
  have hbase : (if 0 < total then max 50 (min 200 ((total : ℚ) / 2)) else 50)
      = max 50 (min 200 ((total : ℚ) / 2)) := by
    split
    · rfl
    · rename_i h
      have : total = 0 := by omega
      rw [this]; norm_num
  have hb50 : (50 : ℚ) ≤ max 50 (min 200 ((total : ℚ) / 2)) := le_max_left _ _
  have hbpos : (0 : ℚ) < max 50 (min 200 ((total : ℚ) / 2)) := by linarith
  have hraw0 : (0 : ℚ) ≤ (add : ℚ) * (3 / 2) + (rem : ℚ) * 1 := by positivity
  have hquot0 : (0 : ℚ) ≤ ((add : ℚ) * (3 / 2) + (rem : ℚ) * 1)
      / max 50 (min 200 ((total : ℚ) / 2)) * 100 := by positivity
  have heq : (calculate_impact_metrics dl).chaos_score = chaosScoreSpec dl := by
    show round2 _ = round2 _
    rw [hbase, max_eq_right hquot0]
  refine ⟨heq, ?_⟩
  rw [heq]
  have hle : min 100 (max 0 (((add : ℚ) * (3 / 2) + (rem : ℚ) * 1)
      / max 50 (min 200 ((total : ℚ) / 2)) * 100)) ≤ 100 := min_le_left _ _
  have hge : 0 ≤ min 100 (max 0 (((add : ℚ) * (3 / 2) + (rem : ℚ) * 1)
      / max 50 (min 200 ((total : ℚ) / 2)) * 100)) :=
    le_min (by norm_num) (le_max_left _ _)
  exact round2_bounds hge hle

/-- The scanning loop of `is_iptables_file` is a threshold test on the
number of matching lines (for a running counter still below 3). -/
theorem isIptablesAux_eq_iff (ls : List (List Char)) :
    ∀ m : Nat, m < 3 →
      (isIptablesAux ls m = true ↔ 3 ≤ m + ls.countP lineMatchesIptables) := by
  induction ls with
  | nil =>
    intro m hm
    simp [isIptablesAux]
    omega
  | cons l rest ih =>
    intro m hm
    rcases h : lineMatchesIptables l with _ | _
    · simp only [isIptablesAux, h, Bool.false_eq_true, if_false]
      rw [if_neg (by omega : ¬ 3 ≤ m), ih m hm, List.countP_cons]
      simp [h]
    · simp only [isIptablesAux, h, if_true]
      by_cases h3 : 3 ≤ m + 1
      · rw [if_pos h3, List.countP_cons]
        simp [h]
        omega
      · rw [if_neg h3, ih (m + 1) (by omega), List.countP_cons]
        simp [h]
        omega

/-- C6: the Format Detector returns `true` exactly when at least 3 lines
each match at least one signature (each line counted at most once); it
returns `false` on empty input, and once a prefix already contains 3
matching lines the verdict does not depend on the remaining lines. -/
theorem is_iptables_file_iff_three_matches :
    (∀ content : List (List Char),
        is_iptables_file content
          = decide (3 ≤ content.countP lineMatchesIptables)) ∧
    is_iptables_file [] = false ∧
    (∀ p s t : List (List Char), 3 ≤ p.countP lineMatchesIptables →
        is_iptables_file (p ++ s) = is_iptables_file (p ++ t)) := by
  have key : ∀ content : List (List Char),
      is_iptables_file content = decide (3 ≤ content.countP lineMatchesIptables) := by
    intro content
    cases content with
    | nil => simp [is_iptables_file]
    | cons a rest =>
      have h := isIptablesAux_eq_iff (a :: rest) 0 (by omega)
      simp only [Nat.zero_add] at h
      simp only [is_iptables_file, List.isEmpty_cons, Bool.false_eq_true, if_false]
      rcases hb : isIptablesAux (a :: rest) 0 with _ | _
      · rw [hb] at h
        symm
        simp only [decide_eq_false_iff_not]
        intro hc
        exact absurd (h.mpr hc) (by simp)
      · rw [hb] at h
        symm
        simp only [decide_eq_true_eq]
        exact h.mp rfl
  refine ⟨key, by simp [is_iptables_file], ?_⟩
  intro p s t hp
  rw [key, key, List.countP_append, List.countP_append,
    decide_eq_true (by omega), decide_eq_true (by omega)]

/-- A line consisting of the word `iptables` matches the first signature. -/
theorem lineMatchesIptables_iptables :
    lineMatchesIptables ['i', 'p', 't', 'a', 'b', 'l', 'e', 's'] = true := by
  simp [lineMatchesIptables, iptables_patterns, reSearch, matchSeq]

/-- Witness for C6: a concrete three-line prefix with 3 matching lines
forces the detector's verdict irrespective of the remaining lines. -/
theorem is_iptables_file_iff_three_matches_witness :
    3 ≤ List.countP lineMatchesIptables
        ["iptables".data, "iptables".data, "iptables".data] ∧
    is_iptables_file (["iptables".data, "iptables".data, "iptables".data]
        ++ ["junk one".data])
      = is_iptables_file (["iptables".data, "iptables".data, "iptables".data]
        ++ ["other junk".data]) := by
  have hc : 3 ≤ List.countP lineMatchesIptables
      ["iptables".data, "iptables".data, "iptables".data] := by
    simp [List.countP, List.countP.go, lineMatchesIptables_iptables]
  exact ⟨hc, is_iptables_file_iff_three_matches.2.2 _ _ _ hc⟩

section DifferLemmas

/-- On identical sequences the common run starting on the diagonal spans
the whole remaining range. -/
theorem runLenAux_diag (a : List (List Char)) (h : Nat) (hh : h ≤ a.length) :
    ∀ rem i, rem = h - i → i ≤ h → runLenAux a a h rem i i = h - i := by
  intro rem
  induction rem with
  | zero => intro i hrem _; simp [runLenAux]; omega
  | succ rem ih =>
    intro i hrem hle
    have hi : i < h := by omega
    have hia : i < a.length := by omega
    rw [runLenAux, if_pos ⟨hi, hia, hia, rfl⟩, ih (i + 1) (by omega) (by omega)]
    omega

/-- The run length is bounded by the remaining fuel. -/
theorem runLenAux_le (a b : List (List Char)) (bhi : Nat) :
    ∀ rem i j, runLenAux a b bhi rem i j ≤ rem := by
  intro rem
  induction rem with
  | zero => intro i j; simp [runLenAux]
  | succ rem ih =>
    intro i j
    simp only [runLenAux]
    split
    · have := ih (i + 1) (j + 1)
      omega
    · omega

/-- A fold that keeps the current best when no candidate strictly
improves on it returns the initial value. -/
theorem foldl_best_keep (l : List (Nat × Nat × Nat)) :
    ∀ best : Nat × Nat × Nat, (∀ c ∈ l, c.2.2 ≤ best.2.2) →
      l.foldl (fun best c => if best.2.2 < c.2.2 then c else best) best = best := by
  induction l with
  | nil => intro best _; rfl
  | cons c l ih =>
    intro best hall
    have hc : c.2.2 ≤ best.2.2 := hall c (by simp)
    simp only [List.foldl_cons, if_neg (by omega : ¬ best.2.2 < c.2.2)]
    exact ih best fun d hd => hall d (by simp [hd])

/-- `find_longest_match` on the identical ranges `[lo, hi)` of a sequence
against itself returns the full diagonal run. -/
theorem findLongestMatch_diag (a : List (List Char)) (lo hi : Nat)
    (hlo : lo ≤ hi) (hhi : hi ≤ a.length) :
    findLongestMatch a a lo hi lo hi = (lo, lo, hi - lo) := by
  unfold findLongestMatch
  rcases Nat.eq_or_lt_of_le hlo with heq | hlt
  · subst heq
    simp [Nat.sub_self, List.range']
  · have hrl : runLen a a hi hi lo lo = hi - lo :=
      runLenAux_diag a hi hhi (hi - lo) lo rfl hlo
    have hne : hi - lo = (hi - lo - 1) + 1 := by omega
    have hrange : List.range' lo (hi - lo) = lo :: List.range' (lo + 1) (hi - lo - 1) := by
      conv_lhs => rw [hne]
      rw [List.range'_succ]
    rw [hrange]
    simp only [List.flatMap_cons, List.map_cons, List.cons_append, List.foldl_cons]
    rw [hrl, if_pos (by simp; omega :
      (lo, lo, (0 : Nat)).2.2 < (lo, lo, hi - lo).2.2)]
    apply foldl_best_keep
    intro c hc
    rcases List.mem_append.1 hc with hc | hc
    · rcases List.mem_map.1 hc with ⟨j, hj, rfl⟩
      simpa using runLenAux_le a a hi (hi - lo) lo j
    · rcases List.mem_flatMap.1 hc with ⟨i, hi2, hc⟩
      have hloi : lo + 1 ≤ i := (List.mem_range'_1.1 hi2).1
      rcases List.mem_cons.1 hc with rfl | hc
      · have := runLenAux_le a a hi (hi - i) i lo
        simpa using le_trans this (by omega : hi - i ≤ hi - lo)
      · rcases List.mem_map.1 hc with ⟨j, hj, rfl⟩
        have := runLenAux_le a a hi (hi - i) i j
        simpa using le_trans this (by omega : hi - i ≤ hi - lo)

/-- The block recursion on an empty range returns no blocks. -/
theorem matchingBlocksAux_empty (a : List (List Char)) (lo : Nat)
    (hlo : lo ≤ a.length) :
    ∀ fuel, matchingBlocksAux a a fuel lo lo lo lo = [] := by
  intro fuel
  cases fuel with
  | zero => rfl
  | succ fuel =>
    simp only [matchingBlocksAux]
    rw [findLongestMatch_diag a lo lo (le_refl lo) hlo]
    simp

/-- The block recursion on identical ranges yields the single diagonal
block. -/
theorem matchingBlocksAux_diag (a : List (List Char)) (lo hi : Nat)
    (hlo : lo ≤ hi) (hhi : hi ≤ a.length) :
    ∀ fuel, 1 ≤ fuel →
      matchingBlocksAux a a fuel lo hi lo hi
        = if hi ≤ lo then [] else [(lo, lo, hi - lo)] := by
  intro fuel hfuel
  cases fuel with
  | zero => omega
  | succ fuel =>
    simp only [matchingBlocksAux]
    rw [findLongestMatch_diag a lo hi hlo hhi]
    rcases Nat.eq_or_lt_of_le hlo with heq | hlt
    · subst heq
      simp
    · rw [if_neg (by omega : ¬ hi - lo = 0), if_neg (by omega : ¬ hi ≤ lo)]
      rw [matchingBlocksAux_empty a lo (by omega) fuel]
      have : lo + (hi - lo) = hi := by omega
      rw [this, matchingBlocksAux_empty a hi hhi fuel]
      rfl

/-- `get_matching_blocks` of a sequence against itself. -/
theorem matchingBlocks_self (a : List (List Char)) :
    matchingBlocks a a
      = if a.length = 0 then [(0, 0, 0)]
        else [(0, 0, a.length), (a.length, a.length, 0)] := by
  unfold matchingBlocks
  rw [matchingBlocksAux_diag a 0 a.length (Nat.zero_le _) (le_refl _)
    (a.length + a.length + 1) (by omega)]
  by_cases h : a.length = 0
  · simp [h]
  · rw [if_neg (by omega : ¬ a.length ≤ 0), if_neg h]
    simp [mergeAdjacent]

/-- `get_opcodes` of a sequence against itself: at most one `equal`
opcode. -/
theorem getOpcodes_self (a : List (List Char)) :
    getOpcodes a a
      = if a.length = 0 then []
        else [(Tag.equal, 0, a.length, 0, a.length)] := by
  unfold getOpcodes
  rw [matchingBlocks_self]
  by_cases h : a.length = 0
  · simp [h, opcodesAux]
  · rw [if_neg h, if_neg h]
    simp only [opcodesAux]
    rw [if_neg (by omega), if_neg (by omega), if_neg (by omega),
      if_pos (by omega : a.length ≠ 0)]
    simp only [Nat.zero_add, List.nil_append]
    rw [if_neg (by omega), if_neg (by omega), if_neg (by omega)]
    simp

/-- A single short `equal` opcode produces no group. -/
theorem groupLoop_single_equal (i1 i2 j1 j2 : Nat) (hle : i2 - i1 ≤ 6) :
    groupLoop [] [] [(Tag.equal, i1, i2, j1, j2)] = [] := by
  have h6 : ¬ 6 < i2 - i1 := by omega
  simp [groupLoop, h6]

/-- `get_grouped_opcodes` of a sequence against itself yields no groups. -/
theorem getGroupedOpcodes_self (a : List (List Char)) :
    getGroupedOpcodes a a = [] := by
  unfold getGroupedOpcodes
  rw [getOpcodes_self]
  by_cases h : a.length = 0
  · simp only [h, if_pos rfl]
    simp [trimHead, trimLast, groupLoop_single_equal]
  · rw [if_neg h]
    simp only [List.isEmpty_cons, if_false, Bool.false_eq_true]
    simp only [trimHead, trimLast, if_pos rfl]
    exact groupLoop_single_equal _ _ _ _ (by omega)

/-- C10: diffing any line sequence against itself yields the empty diff
(after the `---`/`+++` header lines are stripped). -/
theorem compare_configs_self_eq_nil :
    ∀ x : List (List Char), compare_configs x x = [] := by
  intro x
  unfold compare_configs unifiedDiff
  rw [getGroupedOpcodes_self]
  rfl

end DifferLemmas

section RiskLemmas

/-- A successful `matchSeq` starting with a literal means the literal is a
prefix of the remaining input. -/
theorem matchSeq_lit_isPrefix {l : List Char} {res : List RE} {s : List Char}
    (h : matchSeq (.lit l :: res) s = true) : l.isPrefixOf s = true := by
  rw [matchSeq, Bool.and_eq_true] at h
  exact h.1

/-- A successful `re.search` of a pattern starting with a literal means
the literal occurs as a substring. -/
theorem reSearch_lit_hasSubstr (l : List Char) (res : List RE) :
    ∀ s, reSearch (.lit l :: res) s = true → hasSubstr l s = true := by
  intro s
  induction s with
  | nil =>
    intro h
    rw [reSearch] at h
    rw [hasSubstr]
    have := matchSeq_lit_isPrefix h
    cases l with
    | nil => rfl
    | cons c cs => simp [List.isPrefixOf] at this
  | cons c rest ih =>
    intro h
    rw [reSearch, Bool.or_eq_true] at h
    rcases h with h | h
    · rw [hasSubstr, matchSeq_lit_isPrefix h]
      rfl
    · rw [hasSubstr, ih h]
      simp

/-- A pattern starting with the literal `iptables` cannot fire on a line
that does not contain `iptables`. -/
theorem reSearch_iptables_false {line : List Char}
    (h : hasSubstr "iptables".data line = false) (res : List RE) :
    reSearch (RE.lit "iptables".data :: res) line = false := by
  rcases hr : reSearch (RE.lit "iptables".data :: res) line with _ | _
  · rfl
  · exact absurd (reSearch_lit_hasSubstr _ res line hr) (by rw [h]; simp)

/-- The pattern catalog yields no findings on a line without the
substring `iptables`. -/
theorem patternFindings_eq_nil_of_no_iptables {line : List Char}
    (h : hasSubstr "iptables".data line = false) :
    patternFindings line = [] := by
  unfold patternFindings
  rw [List.filterMap_eq_nil_iff]
  intro pd hpd
  fin_cases hpd <;> simp [reSearch_iptables_false h]

end RiskLemmas

/-- C3: every catalog pattern requires the literal `iptables`, so a diff
line without that substring gets no pattern-based findings, and its
per-line findings (when it is a `+` line) are exactly the port-based
ones. -/
theorem pattern_detector_requires_iptables :
    ∀ line : List Char, hasSubstr "iptables".data line = false →
      patternFindings line = [] ∧
      detect_security_risks [line]
        = if ['+'].isPrefixOf line then portFindings line else [] := by
  intro line h
  have hp := patternFindings_eq_nil_of_no_iptables h
  refine ⟨hp, ?_⟩
  simp only [detect_security_risks, List.flatMap_cons, List.flatMap_nil,
    List.append_nil, hp]

/-- Witness for C3 at a concrete normalized rule line. -/
theorem pattern_detector_requires_iptables_witness :
    hasSubstr "iptables".data "+-A INPUT -p tcp -j ACCEPT".data = false ∧
    patternFindings "+-A INPUT -p tcp -j ACCEPT".data = [] := by
  have h : hasSubstr "iptables".data "+-A INPUT -p tcp -j ACCEPT".data = false := by
    decide
  exact ⟨h, (pattern_detector_requires_iptables _ h).1⟩

/-- C1 (behaviour of the code at the spec's example): the port regex of
`detect_security_risks` only recognizes dash-separated ranges, so the
colon range `--dport 20:25` is parsed as the single port 20 and produces
no finding at all — not the SSH and Telnet findings the spec requires. -/
theorem dport_colon_range_yields_no_findings :
    detect_security_risks ["+-A INPUT -p tcp --dport 20:25 -j ACCEPT".data] = []
      ∧ findDport "+-A INPUT -p tcp --dport 20:25 -j ACCEPT".data
          = some ("20".data, none) := by
  have hsub : hasSubstr "iptables".data
      "+-A INPUT -p tcp --dport 20:25 -j ACCEPT".data = false := by decide
  have hpat := patternFindings_eq_nil_of_no_iptables hsub
  constructor
  · simp only [detect_security_risks, List.flatMap_cons, List.flatMap_nil,
      List.append_nil, hpat]
    rw [if_pos (by decide)]
    decide
  · decide

/-- The concrete value of the scenario diff. -/
theorem c2_diff_eq : c2_diff =
    ["@@ -1 +1,2 @@".data,
     "+-A INPUT -p tcp --dport 3389 -j ACCEPT".data,
     " -A INPUT -p tcp --dport 80 -j ACCEPT".data] := by decide

/-- The concrete risk findings of the scenario: exactly the port-catalog
RDP message (the `Medium risk` pattern needs the substring `iptables`,
which the normalized line does not contain). -/
theorem c2_findings_eq :
    detect_security_risks c2_diff
      = [portMsgSingle "+-A INPUT -p tcp --dport 3389 -j ACCEPT".data
          "RDP - Remote desktop access, vulnerable to brute force attacks.".data] := by
  have hpat : patternFindings "+-A INPUT -p tcp --dport 3389 -j ACCEPT".data = [] :=
    patternFindings_eq_nil_of_no_iptables (by decide)
  rw [c2_diff_eq]
  simp only [detect_security_risks, List.flatMap_cons, List.flatMap_nil,
    List.append_nil]
  rw [if_neg (by decide), if_pos (by decide), if_neg (by decide), hpat,
    List.append_nil]
  decide

/-- C2 counterexample: in the spec scenario the findings contain no
`Medium risk` message at all, contradicting the claimed RDP-related
Medium-risk finding. -/
theorem c2_no_medium_risk_finding :
    (detect_security_risks c2_diff).all
      (fun m => !hasSubstr "Medium".data m) = true := by
  rw [c2_findings_eq]
  decide

/-- C2 as amended: the scenario diff has exactly one `+` line, the
findings are exactly the port-catalog RDP message (which cites RDP but no
severity word), additions = 1, removals = 0, and the chaos score is
positive. -/
theorem c2_scenario_amended :
    c2_diff.countP (fun l => ['+'].isPrefixOf l) = 1 ∧
    (∃ m, detect_security_risks c2_diff = [m] ∧ hasSubstr "RDP".data m = true) ∧
    (calculate_impact_metrics c2_diff).additions = 1 ∧
    (calculate_impact_metrics c2_diff).removals = 0 ∧
    0 < (calculate_impact_metrics c2_diff).chaos_score := by
  refine ⟨by rw [c2_diff_eq]; decide, ⟨_, c2_findings_eq, by decide⟩, ?_, ?_, ?_⟩
  · rw [c2_diff_eq]; decide
  · rw [c2_diff_eq]; decide
  · rw [c2_diff_eq]
    norm_num +decide [calculate_impact_metrics, round2, List.countP_cons,
      List.countP_nil, min_def, max_def]

section NormalizerLemmas

/-- The head surviving `dropWhile p` falsifies `p`. -/
theorem dropWhile_head?_false {p : Char → Bool} :
    ∀ {l : List Char} {c : Char}, (l.dropWhile p).head? = some c → p c = false := by
  intro l
  induction l with
  | nil => intro c h; simp [List.dropWhile] at h
  | cons a l ih =>
    intro c h
    rw [List.dropWhile_cons] at h
    split at h
    · exact ih h
    · rename_i hp
      simp at h
      rw [← h]
      exact Bool.not_eq_true _ ▸ (by simpa using hp)

/-- A non-empty prefix determines the head of the longer list. -/
theorem isPrefix_head? {l₁ l₂ : List Char} {c : Char} (h : l₁ <+: l₂)
    (hc : l₁.head? = some c) : l₂.head? = some c := by
  obtain ⟨t, rfl⟩ := h
  cases l₁ with
  | nil => simp at hc
  | cons a u => simpa using hc

/-- Stripping is a prefix of the left-stripped list. -/
theorem pstrip_isPrefix (l : List Char) : pstrip l <+: l.dropWhile isWs := by
  unfold pstrip
  have h := List.dropWhile_suffix (l := (l.dropWhile isWs).reverse) isWs
  have h2 := List.reverse_prefix.2 h
  rwa [List.reverse_reverse] at h2

/-- A stripped line never starts with whitespace. -/
theorem pstrip_head_not_ws {l : List Char} {c : Char}
    (h : (pstrip l).head? = some c) : isWs c = false :=
  dropWhile_head?_false (isPrefix_head? (pstrip_isPrefix l) h)

/-- A stripped line never ends with whitespace. -/
theorem pstrip_getLast_not_ws {l : List Char} {c : Char}
    (h : (pstrip l).getLast? = some c) : isWs c = false := by
  unfold pstrip at h
  rw [List.getLast?_reverse] at h
  exact dropWhile_head?_false h

/-- Stripping a line that is non-empty with non-whitespace ends is the
identity. -/
theorem pstrip_eq_self {s : List Char} (hne : s ≠ [])
    (hh : ∀ c, s.head? = some c → isWs c = false)
    (hl : ∀ c, s.getLast? = some c → isWs c = false) : pstrip s = s := by
  unfold pstrip
  have h1 : s.dropWhile isWs = s := by
    cases s with
    | nil => rfl
    | cons c t => rw [List.dropWhile_cons, if_neg (by simp [hh c rfl])]
  rw [h1]
  have h2 : s.reverse.dropWhile isWs = s.reverse := by
    cases hr : s.reverse with
    | nil => rfl
    | cons c t =>
      have : s.getLast? = some c := by
        rw [← List.head?_reverse, hr]
        rfl
      rw [List.dropWhile_cons, if_neg (by simp [hl c this])]
  rw [h2, List.reverse_reverse]

/-- With a pending dash the scanner's output starts with a dash. -/
theorem fixAux_head_dash : ∀ (s : List Char) (d : Nat), 1 ≤ d →
    (fixAux d s).head? = some '-' := by
  intro s
  induction s with
  | nil =>
    intro d hd
    rw [fixAux, show d = (d - 1) + 1 by omega, List.replicate_succ]
    rfl
  | cons c rest ih =>
    intro d hd
    rw [fixAux]
    split
    · exact ih (d + 1) (by omega)
    · split
      · rename_i h2
        have h2d : 2 ≤ d := by
          simp at h2
          exact h2.2
        rw [show d - 1 = (d - 1 - 1) + 1 by omega, List.replicate_succ]
        rfl
      · rw [show d = (d - 1) + 1 by omega, List.replicate_succ]
        rfl

/-- The dash-fix scanner preserves the head character. -/
theorem fixDashes_head? (s : List Char) : (fixDashes s).head? = s.head? := by
  unfold fixDashes
  cases s with
  | nil => rfl
  | cons c rest =>
    rw [fixAux]
    split
    · rename_i hc
      rw [fixAux_head_dash rest 1 (by omega), hc]
      rfl
    · split
      · rename_i h2
        simp at h2
      · simp

/-- The dash-fix scanner maps a non-empty line (or a pending dash) to a
non-empty line. -/
theorem fixAux_ne_nil : ∀ (s : List Char) (d : Nat), s ≠ [] ∨ 1 ≤ d →
    fixAux d s ≠ [] := by
  intro s
  induction s with
  | nil =>
    intro d hd
    rcases hd with hd | hd
    · exact absurd rfl hd
    · rw [fixAux, show d = (d - 1) + 1 by omega, List.replicate_succ]
      simp
  | cons c rest ih =>
    intro d _
    rw [fixAux]
    split
    · exact ih (d + 1) (Or.inr (by omega))
    · split <;> simp

/-- Dropping the head of a two-or-more-element list keeps the last. -/
theorem getLast?_cons_of_ne {x : Char} {X : List Char} (h : X ≠ []) :
    (x :: X).getLast? = X.getLast? := by
  cases X with
  | nil => exact absurd rfl h
  | cons a t => exact List.getLast?_cons_cons

/-- A replicate-prefix does not change the last element. -/
theorem getLast?_rep_cons (n : Nat) (ch c : Char) (B : List Char) :
    (List.replicate n ch ++ c :: B).getLast? = (c :: B).getLast? := by
  rw [List.getLast?_append]
  have : (c :: B).getLast?.isSome := by
    rw [List.getLast?_isSome]
    simp
  obtain ⟨x, hx⟩ := Option.isSome_iff_exists.1 this
  rw [hx]
  simp

/-- The dash-fix scanner preserves the last character. -/
theorem fixAux_getLast? : ∀ (s : List Char) (d : Nat), s ≠ [] →
    (fixAux d s).getLast? = s.getLast? := by
  intro s
  induction s with
  | nil => intro d h; exact absurd rfl h
  | cons c rest ih =>
    intro d _
    rw [fixAux]
    split
    · rename_i hc
      cases hr : rest with
      | nil =>
        rw [fixAux, List.replicate_succ']
        simp [hc]
      | cons r rs =>
        rw [← hr, ih d.succ (by simp [hr]), hr, List.getLast?_cons_cons]
    · split
      · cases hr : rest with
        | nil =>
          rw [getLast?_rep_cons]
          simp [fixAux]
        | cons r rs =>
          rw [← hr, getLast?_rep_cons,
            getLast?_cons_of_ne (fixAux_ne_nil rest 0 (Or.inl (by simp [hr]))),
            ih 0 (by simp [hr]), hr, List.getLast?_cons_cons]
      · cases hr : rest with
        | nil =>
          rw [getLast?_rep_cons]
          simp [fixAux]
        | cons r rs =>
          rw [← hr, getLast?_rep_cons,
            getLast?_cons_of_ne (fixAux_ne_nil rest 0 (Or.inl (by simp [hr]))),
            ih 0 (by simp [hr]), hr, List.getLast?_cons_cons]

/-- Unfolding the whitespace collapse at a non-whitespace head. -/
theorem collapseWs_cons_of_not_ws {c : Char} (rest : List Char) (h : isWs c = false) :
    collapseWs (c :: rest) = c :: collapseAux false rest := by
  unfold collapseWs
  rw [collapseAux, if_neg (by simp [h])]

/-- Whitespace collapse maps non-empty lines to non-empty lines. -/
theorem collapseWs_ne_nil : ∀ {s : List Char}, s ≠ [] → collapseWs s ≠ [] := by
  intro s h
  cases s with
  | nil => exact absurd rfl h
  | cons c rest =>
    unfold collapseWs
    rw [collapseAux]
    split
    · simp
    · simp

/-- Whitespace collapse preserves a non-whitespace last character. -/
theorem collapseAux_getLast? : ∀ (s : List Char) (b : Bool) {c : Char},
    s.getLast? = some c → isWs c = false → (collapseAux b s).getLast? = some c := by
  intro s
  induction s with
  | nil => intro b c h _; simp at h
  | cons a rest ih =>
    intro b c h hc
    rw [collapseAux]
    cases hr : rest with
    | nil =>
      rw [hr] at h
      simp at h
      rw [← h] at hc
      rw [if_neg (by simp [hc])]
      simp [collapseAux, h]
    | cons r rs =>
      have hne : rest ≠ [] := by rw [hr]; simp
      rw [← hr]
      have hrest : rest.getLast? = some c := by
        rw [← getLast?_cons_of_ne hne (x := a)]
        exact h
      have hX : ∀ b', (collapseAux b' rest).getLast? = some c := fun b' => ih b' hrest hc
      have hXne : ∀ b', collapseAux b' rest ≠ [] := by
        intro b' he
        have := hX b'
        rw [he] at this
        simp at this
      split
      · split
        · exact hX true
        · rw [getLast?_cons_of_ne (hXne true)]
          exact hX true
      · rw [getLast?_cons_of_ne (hXne false)]
        exact hX false

/-- Inside a whitespace run the collapse output starts with a
non-whitespace character (the space is emitted at the start of the run). -/
theorem collapseAux_true_head_not_ws :
    ∀ (rest : List Char) (c : Char) (t : List Char),
      collapseAux true rest = c :: t → isWs c = false := by
  intro rest
  induction rest with
  | nil => intro c t h; simp [collapseAux] at h
  | cons a r ih =>
    intro c t h
    rw [collapseAux] at h
    split at h
    · rw [if_pos rfl] at h
      exact ih c t h
    · rename_i ha
      rw [List.cons.injEq] at h
      rw [← h.1]
      simpa using ha

/-- The collapse state is irrelevant when the input does not start with
whitespace. -/
theorem collapseAux_eq_of_head_not_ws :
    ∀ (X : List Char) (b b' : Bool),
      (∀ c t, X = c :: t → isWs c = false) → collapseAux b X = collapseAux b' X := by
  intro X b b' h
  cases X with
  | nil => rfl
  | cons c t =>
    have hc := h c t rfl
    rw [collapseAux, collapseAux, if_neg (by simp [hc]), if_neg (by simp [hc])]

/-- Collapsing whitespace is idempotent. -/
theorem collapseAux_idem : ∀ (s : List Char) (b : Bool),
    collapseAux false (collapseAux b s) = collapseAux b s := by
  intro s
  induction s with
  | nil => intro b; rfl
  | cons c rest ih =>
    intro b
    rw [collapseAux]
    split
    · split
      · exact ih true
      · rw [collapseAux, if_pos (by decide : isWs ' ' = true), if_neg (by simp)]
        congr 1
        rw [collapseAux_eq_of_head_not_ws (collapseAux true rest) true false
          (fun c t h => collapseAux_true_head_not_ws rest c t h)]
        exact ih true
    · rename_i hc
      rw [collapseAux, if_neg hc]
      congr 1
      exact ih false

/-- `collapseWs` is idempotent. -/
theorem collapseWs_idem (s : List Char) : collapseWs (collapseWs s) = collapseWs s :=
  collapseAux_idem s false

/-- Unfolding `hasDDU` at a cons cell. -/
theorem hasDDU_cons (a : Char) (t : List Char) :
    hasDDU (a :: t) = (startsDDU (a :: t) || hasDDU t) := rfl

/-- `hasDDU` is monotone under dropping the head. -/
theorem hasDDU_cons_false {a : Char} {t : List Char}
    (h : hasDDU (a :: t) = false) : hasDDU t = false := by
  rw [hasDDU_cons, Bool.or_eq_false_iff] at h
  exact h.2

/-- `hasDDU` is monotone under dropping a front part. -/
theorem hasDDU_append_false {t : List Char} :
    ∀ {A : List Char}, hasDDU (A ++ t) = false → hasDDU t = false := by
  intro A
  induction A with
  | nil => intro h; exact h
  | cons a A ih => intro h; exact ih (hasDDU_cons_false h)

/-- A run of at least two dashes before an uppercase letter is a `--X`
occurrence. -/
theorem hasDDU_rep_upper {c : Char} (hc : isUpperAZ c = true) (rest : List Char) :
    ∀ d, 2 ≤ d → hasDDU (List.replicate d '-' ++ c :: rest) = true := by
  intro d
  induction d with
  | zero => intro h; omega
  | succ d ih =>
    intro h
    by_cases h2 : 2 ≤ d
    · rw [List.replicate_succ, List.cons_append, hasDDU_cons, ih h2]
      simp
    · have : d = 1 := by omega
      subst this
      rw [show List.replicate 2 '-' = ['-', '-'] from rfl]
      simp [hasDDU_cons, startsDDU, hc]

/-- On a line without any `--X` occurrence the dash-fix scanner is the
identity. -/
theorem fixAux_id_of_no_ddu :
    ∀ (s : List Char) (d : Nat), hasDDU (List.replicate d '-' ++ s) = false →
      fixAux d s = List.replicate d '-' ++ s := by
  intro s
  induction s with
  | nil => intro d _; rw [fixAux, List.append_nil]
  | cons c rest ih =>
    intro d h
    rw [fixAux]
    split
    · rename_i hc
      subst hc
      have harr : List.replicate (d + 1) '-' ++ rest
          = List.replicate d '-' ++ '-' :: rest := by
        rw [List.replicate_succ', List.append_assoc, List.singleton_append]
      rw [ih (d + 1) (by rw [harr]; exact h), harr]
    · split
      · rename_i h2
        simp only [Bool.and_eq_true, decide_eq_true_eq] at h2
        rw [hasDDU_rep_upper h2.1 rest d h2.2] at h
        exact absurd h (by simp)
      · have hrest : hasDDU rest = false :=
          hasDDU_cons_false (hasDDU_append_false h)
        rw [ih 0 (by simpa using hrest)]
        rfl

/-- `fixDashes` is the identity on lines without a `--X` occurrence. -/
theorem fixDashes_id_of_no_ddu {s : List Char} (h : hasDDU s = false) :
    fixDashes s = s := by
  unfold fixDashes
  have := fixAux_id_of_no_ddu s 0 (by simpa using h)
  simpa using this

/-- Characters with equal code points are equal. -/
theorem chEq {x y : Char} (h : x.toNat = y.toNat) : x = y :=
  Char.ext (UInt32.ext h)

/-- `strLe` is total. -/
theorem strLe_total : ∀ a b : List Char, strLe a b = true ∨ strLe b a = true := by
  intro a
  induction a with
  | nil => intro b; left; rfl
  | cons x xs ih =>
    intro b
    cases b with
    | nil => right; rfl
    | cons y ys =>
      rw [strLe, strLe]
      rcases Nat.lt_trichotomy x.toNat y.toNat with h | h | h
      · left; rw [if_pos h]
      · rw [if_neg (by omega), if_neg (by omega), if_neg (by omega), if_neg (by omega)]
        exact ih ys
      · right; rw [if_pos h]

/-- `strLe` is antisymmetric. -/
theorem strLe_antisymm : ∀ a b : List Char,
    strLe a b = true → strLe b a = true → a = b := by
  intro a
  induction a with
  | nil =>
    intro b _ hba
    cases b with
    | nil => rfl
    | cons y ys => simp [strLe] at hba
  | cons x xs ih =>
    intro b hab hba
    cases b with
    | nil => simp [strLe] at hab
    | cons y ys =>
      rw [strLe] at hab hba
      rcases Nat.lt_trichotomy x.toNat y.toNat with h | h | h
      · rw [if_neg (by omega), if_pos h] at hba
        simp at hba
      · rw [if_neg (by omega), if_neg (by omega)] at hab hba
        rw [chEq h, ih ys hab hba]
      · rw [if_neg (by omega), if_pos h] at hab
        simp at hab

/-- `strLe` is transitive. -/
theorem strLe_trans : ∀ a b c : List Char,
    strLe a b = true → strLe b c = true → strLe a c = true := by
  intro a
  induction a with
  | nil => intro b c _ _; rfl
  | cons x xs ih =>
    intro b c hab hbc
    cases b with
    | nil => simp [strLe] at hab
    | cons y ys =>
      cases c with
      | nil => simp [strLe] at hbc
      | cons z zs =>
        rw [strLe] at hab hbc ⊢
        rcases Nat.lt_trichotomy x.toNat y.toNat with h1 | h1 | h1 <;>
          rcases Nat.lt_trichotomy y.toNat z.toNat with h2 | h2 | h2
        · rw [if_pos (by omega)]
        · rw [if_pos (by omega)]
        · rw [if_neg (by omega), if_pos h2] at hbc
          simp at hbc
        · rw [if_pos (by omega)]
        · rw [if_neg (by omega), if_neg (by omega)] at hab hbc ⊢
          exact ih ys zs hab hbc
        · rw [if_neg (by omega), if_pos h2] at hbc
          simp at hbc
        · rw [if_neg (by omega), if_pos h1] at hab
          simp at hab
        · rw [if_neg (by omega), if_pos h1] at hab
          simp at hab
        · rw [if_neg (by omega), if_pos h1] at hab
          simp at hab

/-- Insertion produces a permutation of the pushed list. -/
theorem strInsert_perm (x : List Char) :
    ∀ l : List (List Char), (strInsert x l).Perm (x :: l) := by
  intro l
  induction l with
  | nil => exact List.Perm.refl _
  | cons y ys ih =>
    rw [strInsert]
    split
    · exact List.Perm.refl _
    · exact (List.Perm.cons y ih).trans (List.Perm.swap x y ys)

/-- Sorting permutes. -/
theorem pysorted_perm : ∀ l : List (List Char), (pysorted l).Perm l := by
  intro l
  induction l with
  | nil => exact List.Perm.refl _
  | cons x xs ih =>
    exact (strInsert_perm x (pysorted xs)).trans (List.Perm.cons x ih)

/-- Insertion into a sorted list stays sorted. -/
theorem strInsert_sorted (x : List Char) :
    ∀ l : List (List Char), l.Pairwise (fun a b => strLe a b = true) →
      (strInsert x l).Pairwise (fun a b => strLe a b = true) := by
  intro l
  induction l with
  | nil => intro _; exact List.pairwise_singleton _ _
  | cons y ys ih =>
    intro hs
    rw [strInsert]
    rcases List.pairwise_cons.1 hs with ⟨hy, hys⟩
    split
    · rename_i hxy
      refine List.pairwise_cons.2 ⟨?_, hs⟩
      intro b hb
      rcases List.mem_cons.1 hb with rfl | hb
      · exact hxy
      · exact strLe_trans _ _ _ hxy (hy b hb)
    · rename_i hxy
      have hyx : strLe y x = true := by
        rcases strLe_total x y with h | h
        · exact absurd h hxy
        · exact h
      refine List.pairwise_cons.2 ⟨?_, ih hys⟩
      intro b hb
      have hb2 := (strInsert_perm x ys).mem_iff.1 hb
      rcases List.mem_cons.1 hb2 with rfl | hb2
      · exact hyx
      · exact hy b hb2

/-- The sort output is sorted. -/
theorem pysorted_sorted : ∀ l : List (List Char),
    (pysorted l).Pairwise (fun a b => strLe a b = true) := by
  intro l
  induction l with
  | nil => simp [pysorted]
  | cons x xs ih => exact strInsert_sorted x (pysorted xs) ih

/-- Insertion below the head is a cons. -/
theorem strInsert_of_le {x y : List Char} (ys : List (List Char))
    (h : strLe x y = true) : strInsert x (y :: ys) = x :: y :: ys := by
  rw [strInsert, if_pos h]

/-- Sorting a sorted list is the identity. -/
theorem pysorted_of_sorted : ∀ l : List (List Char),
    l.Pairwise (fun a b => strLe a b = true) → pysorted l = l := by
  intro l
  induction l with
  | nil => intro _; rfl
  | cons x xs ih =>
    intro hs
    rcases List.pairwise_cons.1 hs with ⟨hx, hxs⟩
    rw [pysorted, ih hxs]
    cases xs with
    | nil => rfl
    | cons y ys => exact strInsert_of_le ys (hx y (by simp))

/-- Sorting two permuted lists gives the same result. -/
theorem pysorted_eq_of_perm {l₁ l₂ : List (List Char)} (h : l₁.Perm l₂) :
    pysorted l₁ = pysorted l₂ := by
  have hperm : (pysorted l₁).Perm (pysorted l₂) :=
    ((pysorted_perm l₁).trans h).trans (pysorted_perm l₂).symm
  have : IsAntisymm (List Char) (fun a b => strLe a b = true) :=
    ⟨fun a b => strLe_antisymm a b⟩
  exact List.eq_of_perm_of_sorted hperm (pysorted_sorted l₁) (pysorted_sorted l₂)

/-- Shape of every line produced by the Normalizer: non-empty, the head
is non-whitespace and is not `#`, the last character is non-whitespace,
and whitespace is already collapsed. -/
theorem normalize_mem_shape {x : List (List Char)} {y : List Char}
    (hy : y ∈ normalize_iptables_config x) :
    y ≠ [] ∧ (∀ c, y.head? = some c → isWs c = false ∧ c ≠ '#') ∧
    (∀ c, y.getLast? = some c → isWs c = false) ∧
    collapseWs y = y := by
  unfold normalize_iptables_config at hy
  have hy2 := (pysorted_perm _).mem_iff.1 hy
  rcases List.mem_map.1 hy2 with ⟨l, hl, rfl⟩
  have hkeep : keepLine l = true := List.of_mem_filter hl
  unfold keepLine at hkeep
  rw [Bool.and_eq_true] at hkeep
  rcases hkeep with ⟨hne, hpre⟩
  have hne2 : pstrip l ≠ [] := by
    intro he
    rw [he] at hne
    simp at hne
  obtain ⟨c0, u, hcu⟩ : ∃ c0 u, pstrip l = c0 :: u := by
    cases hc : pstrip l with
    | nil => exact absurd hc hne2
    | cons c0 u => exact ⟨c0, u, rfl⟩
  have hc0ws : isWs c0 = false := pstrip_head_not_ws (by rw [hcu]; rfl)
  have hc0hash : c0 ≠ '#' := by
    intro he
    rw [hcu, he] at hpre
    simp [List.isPrefixOf] at hpre
  have hfix_head : (fixDashes (pstrip l)).head? = some c0 := by
    rw [fixDashes_head?, hcu]
    rfl
  have hfix_ne : fixDashes (pstrip l) ≠ [] := fixAux_ne_nil _ 0 (Or.inl hne2)
  obtain ⟨u2, hu2⟩ : ∃ u2, fixDashes (pstrip l) = c0 :: u2 := by
    cases hf : fixDashes (pstrip l) with
    | nil => exact absurd hf hfix_ne
    | cons a t =>
      rw [hf] at hfix_head
      simp at hfix_head
      exact ⟨t, by rw [hfix_head]⟩
  have hcol : collapseWs (fixDashes (pstrip l)) = c0 :: collapseAux false u2 := by
    rw [hu2]
    exact collapseWs_cons_of_not_ws u2 hc0ws
  refine ⟨by rw [hcol]; simp, ?_, ?_, ?_⟩
  · intro c hc
    rw [hcol] at hc
    simp at hc
    rw [← hc]
    exact ⟨hc0ws, hc0hash⟩
  · intro c hc
    obtain ⟨cl, hcl⟩ : ∃ cl, (pstrip l).getLast? = some cl := by
      cases hg : (pstrip l).getLast? with
      | none => rw [List.getLast?_eq_none_iff] at hg; exact absurd hg hne2
      | some cl => exact ⟨cl, rfl⟩
    have hclws : isWs cl = false := pstrip_getLast_not_ws hcl
    have hfix_last : (fixDashes (pstrip l)).getLast? = some cl := by
      unfold fixDashes
      rw [fixAux_getLast? _ 0 hne2]
      exact hcl
    have : (collapseWs (fixDashes (pstrip l))).getLast? = some cl :=
      collapseAux_getLast? _ false hfix_last hclws
    rw [this] at hc
    simp at hc
    rw [← hc]
    exact hclws
  · exact collapseWs_idem _

/-- C5 counterexample: a surviving line may keep an interior `#`; the
normalized output of `["a #b\n"]` is `["a #b"]`, which contains `#`. -/
theorem normalize_keeps_interior_hash :
    (normalize_iptables_config ["a #b\n".data]).any
      (fun y => y.contains '#') = true := by
  decide

/-- C5 as amended: every line of the Normalizer's output is non-empty and
does not start with the comment marker `#` (interior `#` may remain). -/
theorem normalize_invariant_nonempty_no_leading_hash :
    ∀ x : List (List Char),
      (normalize_iptables_config x).all
        (fun y => !y.isEmpty && !(['#'].isPrefixOf y)) = true := by
  intro x
  rw [List.all_eq_true]
  intro y hy
  obtain ⟨hne, hhead, _, _⟩ := normalize_mem_shape hy
  cases hyc : y with
  | nil => exact absurd hyc hne
  | cons c t =>
    have hc := hhead c (by rw [hyc]; rfl)
    simp [List.isPrefixOf]
    intro he
    exact hc.2 he.symm

end NormalizerLemmas

/-- C9: the Normalizer is order-insensitive — permuting the input lines
yields the same normalized output. -/
theorem normalize_perm_invariant :
    ∀ x y : List (List Char), x.Perm y →
      normalize_iptables_config x = normalize_iptables_config y := by
  intro x y h
  unfold normalize_iptables_config
  exact pysorted_eq_of_perm (List.Perm.map _ (List.Perm.filter keepLine h))

/-- Witness for C9 on a concrete two-line permutation. -/
theorem normalize_perm_invariant_witness :
    (["b x\n".data, "a y\n".data].Perm ["a y\n".data, "b x\n".data]) ∧
    normalize_iptables_config ["b x\n".data, "a y\n".data]
      = normalize_iptables_config ["a y\n".data, "b x\n".data] := by
  have h : (["b x\n".data, "a y\n".data]).Perm ["a y\n".data, "b x\n".data] := by
    decide
  exact ⟨h, normalize_perm_invariant _ _ h⟩

/-- C4 counterexample: normalization is not idempotent — the line `---A`
normalizes to `--A`, which a second normalization turns into `-A` (the
`--X` rewrite fires again on its own output). -/
theorem normalize_not_idempotent :
    normalize_iptables_config (normalize_iptables_config ["---A\n".data])
      ≠ normalize_iptables_config ["---A\n".data] := by
  decide

/-- C4 as amended: normalization is idempotent on every input whose
normalized lines contain no two consecutive dashes followed by an
uppercase ASCII letter (the input `["---A"]` violates this and refutes
the unconditional claim). -/
theorem normalize_idempotent_of_no_ddu :
    ∀ x : List (List Char),
      (∀ y ∈ normalize_iptables_config x, hasDDU y = false) →
      normalize_iptables_config (normalize_iptables_config x)
        = normalize_iptables_config x := by
  intro x hx
  have hfilter : (normalize_iptables_config x).filter keepLine
      = normalize_iptables_config x := by
    rw [List.filter_eq_self]
    intro y hy
    obtain ⟨hne, hhead, hlast, _⟩ := normalize_mem_shape hy
    unfold keepLine
    have hps : pstrip y = y := pstrip_eq_self hne (fun c hc => (hhead c hc).1) hlast
    rw [hps]
    cases hyc : y with
    | nil => exact absurd hyc hne
    | cons c t =>
      have hc := hhead c (by rw [hyc]; rfl)
      simp [List.isPrefixOf]
      intro he
      exact hc.2 he.symm
  have hmapid : ∀ y ∈ normalize_iptables_config x,
      collapseWs (fixDashes (pstrip y)) = y := by
    intro y hy
    obtain ⟨hne, hhead, hlast, hcol⟩ := normalize_mem_shape hy
    rw [pstrip_eq_self hne (fun c hc => (hhead c hc).1) hlast,
      fixDashes_id_of_no_ddu (hx y hy), hcol]
  have hsorted : (normalize_iptables_config x).Pairwise
      (fun a b => strLe a b = true) := by
    unfold normalize_iptables_config
    exact pysorted_sorted _
  calc normalize_iptables_config (normalize_iptables_config x)
      = pysorted (((normalize_iptables_config x).filter keepLine).map
          fun l => collapseWs (fixDashes (pstrip l))) := rfl
    _ = pysorted ((normalize_iptables_config x).map
          fun l => collapseWs (fixDashes (pstrip l))) := by rw [hfilter]
    _ = pysorted (normalize_iptables_config x) := by
          rw [List.map_congr_left fun a ha => hmapid a ha]
          simp
    _ = normalize_iptables_config x := pysorted_of_sorted _ hsorted

/-- Witness for C4 on a concrete rule line free of `--X` occurrences. -/
theorem normalize_idempotent_of_no_ddu_witness :
    (∀ y ∈ normalize_iptables_config ["-A INPUT -p tcp --dport 22 -j ACCEPT\n".data],
        hasDDU y = false) ∧
    normalize_iptables_config (normalize_iptables_config
        ["-A INPUT -p tcp --dport 22 -j ACCEPT\n".data])
      = normalize_iptables_config ["-A INPUT -p tcp --dport 22 -j ACCEPT\n".data] := by
  have h : ∀ y ∈ normalize_iptables_config
      ["-A INPUT -p tcp --dport 22 -j ACCEPT\n".data], hasDDU y = false := by
    decide
  exact ⟨h, normalize_idempotent_of_no_ddu _ h⟩

end Guernica
